import Mathlib

set_option autoImplicit false

/-
  Verification of the REST-dispatch and packet-handler core of a chat-client
  library.  Definitions are shallow embeddings of the JavaScript source files:

  * `RESTManager` and its operations embed the class of the same name
    (route-keyed request-handler map, lazy handler creation, promise queueing,
    teardown).
  * `PresencesReplaceHandler.handle` embeds the bulk presence-replace packet
    handler.
  * `MessageEmbed.addField` embeds the embed field builder.
  * `escapeEveryone` embeds the `@everyone`/`@here` zero-width-space escaping
    step of `sendMessage`.
  * The rate-limit bucket, the global limit gate and the per-route request
    handler send loop are not part of the provided sources (only their callers
    are); those definitions are modelled from the specification and are marked
    as such in their doc comments.
-/

namespace DiscordJS

/-! ## Packet dispatch: PresencesReplace handler -/

/-- Gateway event names used by the packet manager's handler table. -/
inductive WSEvent where
  | PRESENCE_UPDATE
  deriving DecidableEq, Repr

/-- An inbound raw frame whose payload `d` is a list of records
(`packet.d` in `PresencesReplace.js`). -/
structure RawPacket (α : Type) where
  d : List α

/-- The synthetic packet `{ d: data }` built for each record. -/
structure SyntheticPacket (α : Type) where
  d : α
  deriving DecidableEq

/-- One invocation of a handler from the packet manager's handler table:
`this.packetManager.handlers[event](packet)`. -/
structure Invocation (α : Type) where
  event : WSEvent
  packet : SyntheticPacket α
  deriving DecidableEq

/-- Embedding of `PresencesReplaceHandler.handle` (`PresencesReplace.js`):
a synchronous `for (const data of packet.d)` loop that invokes the
`PRESENCE_UPDATE` handler with `{ d: data }` for each record.  The returned
list is the trace of handler invocations, accumulated in loop order; the loop
body contains no suspension, so the whole trace is produced before `handle`
returns. -/
def PresencesReplaceHandler.handle {α : Type} (packet : RawPacket α) : List (Invocation α) :=
  packet.d.foldl (fun calls data => calls ++ [⟨WSEvent.PRESENCE_UPDATE, ⟨data⟩⟩]) []

/-! ## Rate-limit state (modelled from the spec where the source is absent) -/

/-- Per-route rate-limit state.  Modelled from the spec: the RequestHandler
sources (`RequestHandlers/Sequential.js`, `RequestHandlers/Burst.js`) and the
header-reading code are not under the provided sources; the spec gives the
bucket as `{limit, remaining, resetAt (absolute time)}`. -/
structure RateLimitBucket where
  limit : Nat
  remaining : Nat
  resetAt : Nat
  deriving DecidableEq, Repr

/-- Process-wide global limit gate.  Modelled from the spec:
`{limited : bool, retryAfter : absolute time}`, shared by all handlers. -/
structure GlobalLimitGate where
  limited : Bool
  retryAfter : Nat
  deriving DecidableEq, Repr

/-- Rate-limit headers carried by a response. -/
structure ResponseHeaders where
  limit : Nat
  remaining : Nat
  reset : Nat
  deriving DecidableEq, Repr

/-- Modelled from the spec: on success the handler updates the bucket from the
response headers (`limit`, `remaining`, `reset`); the update is a plain
overwrite of the bucket state with the header values. -/
def updateBucket (_b : RateLimitBucket) (h : ResponseHeaders) : RateLimitBucket :=
  { limit := h.limit, remaining := h.remaining, resetAt := h.reset }

/-- What the per-route handler does with the next dequeued request at a given
instant: suspend, or send it. -/
inductive HandlerAction where
  | wait
  | send
  deriving DecidableEq, Repr

/-- Modelled from the spec, §4.2 steps 1–3: before sending, a handler first
checks the global gate (if set and `now < retryAfter`, wait), then the route's
bucket (if `remaining = 0` and `now < resetAt`, wait), and only then sends. -/
def handlerStep (gate : GlobalLimitGate) (bucket : RateLimitBucket) (now : Nat) : HandlerAction :=
  if gate.limited = true ∧ now < gate.retryAfter then .wait
  else if bucket.remaining = 0 ∧ now < bucket.resetAt then .wait
  else .send

/-- Modelled from the spec, §4.2 step 5: on a 429 response the handler reads
`retry-after` and the global flag; if global it sets the GlobalLimitGate,
otherwise it exhausts this route's bucket with `resetAt = now + retry-after`. -/
def handle429 (gate : GlobalLimitGate) (bucket : RateLimitBucket) (now retryAfterMs : Nat)
    (isGlobal : Bool) : GlobalLimitGate × RateLimitBucket :=
  if isGlobal then ({ limited := true, retryAfter := now + retryAfterMs }, bucket)
  else (gate, { bucket with remaining := 0, resetAt := now + retryAfterMs })

/-! ## Settlement order (modelled from the spec) -/

/-- Modelled from the spec: the Sequential handler "processes one request fully
(through settlement) before starting the next"; this loop settles the head of
the queue, appends it to the settlement trace, and continues. -/
def seqRun {α : Type} : List α → List α → List α
  | settled, [] => settled
  | settled, r :: rest => seqRun (settled ++ [r]) rest

/-- Settlement trace of a Sequential handler run over an enqueue-ordered
queue. -/
def seqSettleOrder {α : Type} (q : List α) : List α :=
  seqRun [] q

/-- Modelled from the spec: Burst mode "may have multiple requests in flight
simultaneously"; completions arrive in an arbitrary schedule, so the
settlement trace is the queue read back in schedule order. -/
def burstSettleOrder {α : Type} (q : List α) (sched : List Nat) : List α :=
  sched.filterMap (fun i => q.get? i)

/-- A burst completion schedule is admissible when it is a permutation of the
queue's index set. -/
def validSchedule (n : Nat) (sched : List Nat) : Prop :=
  List.Perm sched (List.range n)

/-! ## RESTManager (`RESTManager.js`, bundled after `CommandInteraction.js`) -/

/-- Routes are the string keys of `this.handlers` (derived by `APIRequest`
from method and path; opaque here). -/
abbrev Route := String

/-- The two request-handler classes selectable by
`client.options.apiRequestMethod`. -/
inductive HandlerType where
  | sequential
  | burst
  deriving DecidableEq, Repr

/-- An entry of a handler's queue: `{request, resolve, reject}`.  The resolve
and reject continuations of the promise returned by `RESTManager.push` are
represented by the identity of that promise. -/
structure QueueEntry where
  promiseId : Nat
  deriving DecidableEq, Repr

/-- A per-route request handler object: its identity (allocation number), the
class it was instantiated from, its pending queue, and whether `destroy()` has
been called on it. -/
structure RequestHandler where
  hid : Nat
  htype : HandlerType
  queue : List QueueEntry
  destroyed : Bool
  deriving DecidableEq, Repr

/-- Embedding of `handler.destroy()`: marks the handler torn down. -/
def RequestHandler.destroy (h : RequestHandler) : RequestHandler :=
  { h with destroyed := true }

/-- The error thrown by `getRequestHandler` for an unrecognized
`apiRequestMethod`. -/
inductive RESTError where
  | INVALID_RATE_LIMIT_METHOD
  deriving DecidableEq, Repr

/-- State of a `RESTManager`: the `this.handlers` object (an insertion-ordered
key–value map, embedded as an association list with unique keys), allocation
counters giving fresh identities to handler objects and to promises, the
`client.options.apiRequestMethod` string, and the `globallyRateLimited`
flag set by the constructor. -/
structure RESTManager where
  handlers : List (Route × RequestHandler)
  nextHandlerId : Nat
  nextPromiseId : Nat
  apiRequestMethod : String
  globallyRateLimited : Bool

/-- The state built by `new RESTManager(client)`: empty handler map,
`globallyRateLimited = false`. -/
def RESTManager.initial (method : String) : RESTManager :=
  { handlers := []
    nextHandlerId := 0
    nextPromiseId := 0
    apiRequestMethod := method
    globallyRateLimited := false }

/-- Property lookup `this.handlers[route]`. -/
def findHandler : List (Route × RequestHandler) → Route → Option RequestHandler
  | [], _ => none
  | (r', h) :: rest, r => if r' = r then some h else findHandler rest r

/-- In-place update of the handler object stored under `route`: appending an
entry to its queue (`handler.push(...)` pushes onto the handler's queue). -/
def pushEntry : List (Route × RequestHandler) → Route → QueueEntry → List (Route × RequestHandler)
  | [], _, _ => []
  | (r', h) :: rest, route, e =>
    if r' = route then (r', { h with queue := h.queue ++ [e] }) :: pushEntry rest route e
    else (r', h) :: pushEntry rest route e

/-- Embedding of `RESTManager.getRequestHandler`: selects the handler class by
`client.options.apiRequestMethod`, throwing `INVALID_RATE_LIMIT_METHOD` for
any other value. -/
def RESTManager.getRequestHandler (m : RESTManager) : Except RESTError HandlerType :=
  if m.apiRequestMethod = "sequential" then .ok .sequential
  else if m.apiRequestMethod = "burst" then .ok .burst
  else .error .INVALID_RATE_LIMIT_METHOD

/-- Embedding of `RESTManager.request` (with `RESTManager.push` inlined, as in
the source `request` ends by calling `push`): if `this.handlers[route]` is
absent, `getRequestHandler()` picks the class (throwing on an invalid option)
and a fresh handler is stored under the route; then a fresh promise is created
and an entry carrying its continuations is pushed onto that handler's queue.
The result records the identity of the handler the request was enqueued into,
the identity of the returned promise, and the new state. -/
def RESTManager.request (m : RESTManager) (route : Route) :
    Except RESTError (Nat × Nat × RESTManager) :=
  match findHandler m.handlers route with
  | some h =>
      .ok (h.hid, m.nextPromiseId,
        { m with
            handlers := pushEntry m.handlers route ⟨m.nextPromiseId⟩
            nextPromiseId := m.nextPromiseId + 1 })
  | none =>
      match m.getRequestHandler with
      | .error e => .error e
      | .ok t =>
          .ok (m.nextHandlerId, m.nextPromiseId,
            { m with
                handlers := pushEntry (m.handlers ++ [(route, ⟨m.nextHandlerId, t, [], false⟩)])
                  route ⟨m.nextPromiseId⟩
                nextHandlerId := m.nextHandlerId + 1
                nextPromiseId := m.nextPromiseId + 1 })

/-- Embedding of `RESTManager.destroy`: `for (const handlerID in this.handlers)
this.handlers[handlerID].destroy()` — every handler in the map is destroyed. -/
def RESTManager.destroy (m : RESTManager) : RESTManager :=
  { m with handlers := m.handlers.map (fun p => (p.1, p.2.destroy)) }

/-- A sequence of `request` calls, collecting the identity of the handler each
request was enqueued into. -/
def runRequests (m : RESTManager) : List Route → Except RESTError (List Nat × RESTManager)
  | [] => .ok ([], m)
  | r :: rs =>
    match m.request r with
    | .error e => .error e
    | .ok (hid, _, m1) =>
      match runRequests m1 rs with
      | .error e => .error e
      | .ok (hids, m2) => .ok (hid :: hids, m2)

/-! ## MessageEmbed.addField (`MessageEmbed.js`) -/

/-- A `StringResolvable` argument: a string, an array of strings (joined with
a newline), or any other value (coerced with `String(data)`). -/
inductive StringResolvable where
  | str (s : String)
  | list (l : List String)
  | other (coerced : String)
  deriving DecidableEq, Repr

/-- Embedding of the module-local `resolveString` helper of
`MessageEmbed.js`. -/
def resolveString : StringResolvable → String
  | .str s => s
  | .list l => String.intercalate ("\n") l
  | .other c => c

/-- The whitespace class of the JavaScript regular-expression escape `\s`. -/
def isJSWhitespace (c : Char) : Bool :=
  c == ' ' || c == '\t' || c == '\n' || c == '\x0b' || c == '\x0c' || c == '\r' ||
  c == '\u00A0' || c == '\u1680' || (('\u2000' : Char) ≤ c && c ≤ '\u200A') ||
  c == '\u2028' || c == '\u2029' || c == '\u202F' || c == '\u205F' ||
  c == '\u3000' || c == '\uFEFF'

/-- Embedding of `/\S/.test(s)`: does `s` contain a non-whitespace
character? -/
def hasNonWS (s : String) : Bool :=
  s.data.any (fun c => !(isJSWhitespace c))

/-- A field of an embed: `{ name, value, inline }`. -/
structure EmbedField where
  name : String
  value : String
  inline : Bool
  deriving DecidableEq, Repr

/-- The embed state touched by `addField`: its `fields` array. -/
structure MessageEmbed where
  fields : List EmbedField
  deriving DecidableEq, Repr

/-- The `RangeError`s thrown by `MessageEmbed.addField`, by throw site. -/
inductive EmbedRangeError where
  | tooManyFields
  | nameTooLong
  | nameEmpty
  | valueTooLong
  | valueEmpty
  deriving DecidableEq, Repr

/-- Embedding of `MessageEmbed.addField`: checks the field count, then the
resolved name's length and non-emptiness, then the resolved value's length and
non-emptiness, in source order; every throw happens before the `push`, and the
success path appends `{name, value, inline}` and returns the embed. -/
def MessageEmbed.addField (e : MessageEmbed) (name value : StringResolvable) (inl : Bool) :
    Except EmbedRangeError MessageEmbed :=
  if 25 ≤ e.fields.length then .error .tooManyFields
  else
    let n := resolveString name
    if 256 < n.length then .error .nameTooLong
    else if hasNonWS n = false then .error .nameEmpty
    else
      let v := resolveString value
      if 1024 < v.length then .error .valueTooLong
      else if hasNonWS v = false then .error .valueEmpty
      else .ok { e with fields := e.fields ++ [{ name := n, value := v, inline := inl }] }

/-! ## sendMessage mention escaping (`shared/SendMessage.js`) -/

/-- The zero-width space U+200B inserted after `@`. -/
def zwsp : Char := '\u200B'

/-- The characters of `everyone`. -/
def evChars : List Char := ['e', 'v', 'e', 'r', 'y', 'o', 'n', 'e']

/-- The characters of `here`. -/
def hereChars : List Char := ['h', 'e', 'r', 'e']

/-- Does `pat` occur at the start of `l`?  (The anchored match of a literal
regular-expression alternative.) -/
def begWith : List Char → List Char → Bool
  | [], _ => true
  | _ :: _, [] => false
  | p :: ps, c :: cs => if p = c then begWith ps cs else false

/-- Embedding of `content.replace(/@(everyone|here)/g, '@​$1')`: the
left-to-right global scan of a regular-expression replace.  At each position,
if `@everyone` or `@here` matches, the replacement `@` + U+200B + the matched
word is emitted and the scan resumes after the match (replacements are not
rescanned); otherwise one character is copied. -/
def escapeEveryone : List Char → List Char
  | [] => []
  | c :: rest =>
    if c = '@' then
      if begWith evChars rest then
        '@' :: zwsp :: evChars ++ escapeEveryone (rest.drop 8)
      else if begWith hereChars rest then
        '@' :: zwsp :: hereChars ++ escapeEveryone (rest.drop 4)
      else '@' :: escapeEveryone rest
    else c :: escapeEveryone rest
termination_by l => l.length
decreasing_by
  all_goals simp [List.length_drop]
  all_goals omega

/-- Embedding of the escape gate in `sendMessage`:
`disableEveryone || (typeof disableEveryone === 'undefined' &&
channel.client.options.disableEveryone)`.  The per-call option is `none` when
the property is absent (`undefined`). -/
def shouldEscape (disableEveryone : Option Bool) (clientDisableEveryone : Bool) : Bool :=
  match disableEveryone with
  | some b => b
  | none => clientDisableEveryone

/-- The content transformation of the escaping step of `sendMessage`: apply
`escapeEveryone` exactly when the gate is on. -/
def sendMessageEscape (content : List Char) (disableEveryone : Option Bool)
    (clientDisableEveryone : Bool) : List Char :=
  if shouldEscape disableEveryone clientDisableEveryone then escapeEveryone content
  else content

/-- Does `pat` occur as a contiguous substring of `l`? -/
def hasSub (pat : List Char) : List Char → Bool
  | [] => false
  | c :: rest => begWith pat (c :: rest) || hasSub pat rest

/-! ## Theorems -/

/-- Accumulating a singleton per element is the same as mapping. -/
theorem foldl_append_singleton {α β : Type} (f : α → β) :
    ∀ (l : List α) (acc : List β),
      l.foldl (fun a d => a ++ [f d]) acc = acc ++ l.map f := by
  intro l
  induction l with
  | nil => intro acc; simp
  | cons x xs ih => intro acc; simp [List.foldl, ih]

/-- The invocation trace of the presence-replace handler is the record list,
dispatched one-to-one. -/
theorem handle_eq_map {α : Type} (packet : RawPacket α) :
    PresencesReplaceHandler.handle packet =
      packet.d.map (fun r => ⟨WSEvent.PRESENCE_UPDATE, ⟨r⟩⟩) := by
  unfold PresencesReplaceHandler.handle
  rw [foldl_append_singleton]
  simp

/-- C2: a bulk presence-replace packet with N records produces exactly N
`PRESENCE_UPDATE` handler invocations, the i-th carrying the i-th record as its
payload (so the list's original order is kept); the trace is complete when
`handle` returns, the loop being synchronous. -/
theorem presencesReplace_dispatches_each_record {α : Type} (packet : RawPacket α) :
    (PresencesReplaceHandler.handle packet).length = packet.d.length ∧
    ∀ i : Nat, (PresencesReplaceHandler.handle packet).get? i =
      (packet.d.get? i).map (fun r => ⟨WSEvent.PRESENCE_UPDATE, ⟨r⟩⟩) := by
  constructor
  · simp [handle_eq_map]
  · intro i
    simp [handle_eq_map]

/-- C4: after a 429 response carrying the global flag, the gate is set with
`retryAfter = now + retry-after`, and at any instant before that deadline a
request handler on any route waits instead of sending — even when the route's
own bucket still has remaining capacity. -/
theorem global_gate_blocks_all_routes (gate : GlobalLimitGate) (bucket : RateLimitBucket)
    (now retryAfterMs t : Nat) (ht : t < now + retryAfterMs) (b : RateLimitBucket) :
    handlerStep (handle429 gate bucket now retryAfterMs true).1 b t = .wait := by
  simp [handle429, handlerStep, ht]

/-- Witness for C4: a globally limited gate blocks a route whose bucket has
5 calls remaining. -/
theorem global_gate_blocks_all_routes_witness :
    (1500 < 100 + 2000) ∧
    handlerStep (handle429 ⟨false, 0⟩ ⟨5, 5, 0⟩ 100 2000 true).1 ⟨5, 5, 0⟩ 1500 = .wait :=
  ⟨by decide, global_gate_blocks_all_routes ⟨false, 0⟩ ⟨5, 5, 0⟩ 100 2000 1500 (by decide) ⟨5, 5, 0⟩⟩

/-- C5: a response carrying `limit=5, remaining=3, reset=T` sets the bucket to
exactly `{limit:5, remaining:3, resetAt:T}`, and re-applying the same header
set yields the same state: the update is an idempotent overwrite (also stated
for arbitrary headers), never an accumulation. -/
theorem updateBucket_overwrite_idempotent (b : RateLimitBucket) (T : Nat) :
    updateBucket b ⟨5, 3, T⟩ = ⟨5, 3, T⟩ ∧
    updateBucket (updateBucket b ⟨5, 3, T⟩) ⟨5, 3, T⟩ = updateBucket b ⟨5, 3, T⟩ ∧
    ∀ (b' : RateLimitBucket) (h : ResponseHeaders),
      updateBucket (updateBucket b' h) h = updateBucket b' h := by
  refine ⟨rfl, rfl, fun b' h => rfl⟩

/-- The sequential settlement loop appends the queue to the settled trace. -/
theorem seqRun_append {α : Type} :
    ∀ (rest acc : List α), seqRun acc rest = acc ++ rest := by
  intro rest
  induction rest with
  | nil => intro acc; simp [seqRun]
  | cons r rs ih => intro acc; simp [seqRun, ih]

/-- C6: under the Sequential handler the settlement order of a route's queue
equals its enqueue order; under Burst there is an admissible completion
schedule whose settlement order differs from the enqueue order, so no such
inter-request guarantee holds. -/
theorem sequential_settles_in_enqueue_order :
    (∀ q : List Nat, seqSettleOrder q = q) ∧
    (∃ q sched : List Nat, validSchedule q.length sched ∧ burstSettleOrder q sched ≠ q) := by
  constructor
  · intro q
    simp [seqSettleOrder, seqRun_append]
  · refine ⟨[10, 20], [1, 0], ?_, by decide⟩
    simp [validSchedule]
    decide

/-- C7: `RESTManager.destroy` calls `destroy()` on every handler present in
the route-to-handler map: each stored handler is replaced by its destroyed
version, and every handler in the resulting map is destroyed. -/
theorem destroy_destroys_every_handler (m : RESTManager) :
    (∀ r h, (r, h) ∈ m.handlers → (r, RequestHandler.destroy h) ∈ m.destroy.handlers) ∧
    (∀ p, p ∈ m.destroy.handlers → p.2.destroyed = true) := by
  constructor
  · intro r h hm
    simp only [RESTManager.destroy]
    exact List.mem_map.mpr ⟨(r, h), hm, rfl⟩
  · intro p hp
    rcases List.mem_map.mp hp with ⟨q, _, rfl⟩
    simp [RequestHandler.destroy]

/-- Witness for C7: destroying a manager holding one handler destroys it. -/
theorem destroy_destroys_every_handler_witness :
    ((("a" : Route), ⟨0, .sequential, [], false⟩) ∈
        (RESTManager.mk [(("a" : Route), ⟨0, .sequential, [], false⟩)] 1 0 ("sequential") false).handlers) ∧
    ((("a" : Route), RequestHandler.destroy ⟨0, .sequential, [], false⟩) ∈
        (RESTManager.mk [(("a" : Route), ⟨0, .sequential, [], false⟩)] 1 0 ("sequential") false).destroy.handlers) :=
  ⟨by decide,
    (destroy_destroys_every_handler
        (RESTManager.mk [(("a" : Route), ⟨0, .sequential, [], false⟩)] 1 0 ("sequential") false)).1
      ("a") ⟨0, .sequential, [], false⟩ (by decide)⟩

/-- C9: `MessageEmbed.addField` throws a `RangeError` exactly when the embed
already holds 25 or more fields, or the resolved name is longer than 256
characters or all-whitespace, or the resolved value is longer than 1024
characters or all-whitespace; otherwise it appends `{name, value, inline}`
after the existing fields (leaving them unchanged) and returns the embed.
Every throw happens before the append, so on the throwing paths the field list
is untouched. -/
theorem addField_spec (e : MessageEmbed) (name value : StringResolvable) (inl : Bool) :
    ((∃ err, MessageEmbed.addField e name value inl = .error err) ↔
      (25 ≤ e.fields.length ∨ 256 < (resolveString name).length ∨
        hasNonWS (resolveString name) = false ∨ 1024 < (resolveString value).length ∨
        hasNonWS (resolveString value) = false)) ∧
    (∀ e', MessageEmbed.addField e name value inl = .ok e' →
      e' = { e with fields := e.fields ++
        [{ name := resolveString name, value := resolveString value, inline := inl }] }) := by
  unfold MessageEmbed.addField
  dsimp only
  split_ifs with h1 h2 h3 h4 h5 <;> simp_all

/-- Witness for C9: an embed with 25 fields rejects a further well-formed
field. -/
theorem addField_spec_witness :
    ∃ err, MessageEmbed.addField ⟨List.replicate 25 ⟨("x"), ("y"), false⟩⟩
      (.str ("a")) (.str ("b")) false = .error err :=
  (addField_spec ⟨List.replicate 25 ⟨("x"), ("y"), false⟩⟩ (.str ("a")) (.str ("b")) false).1.mpr
    (Or.inl (by decide))

/-- An anchored match of a pattern against itself plus a tail succeeds. -/
theorem begWith_append_self : ∀ (pat l : List Char), begWith pat (pat ++ l) = true := by
  intro pat
  induction pat with
  | nil => intro l; simp [begWith]
  | cons p ps ih => intro l; simp [begWith, ih]

/-- Any explicit split exhibits a substring occurrence. -/
theorem hasSub_of_split (p : Char) (ps : List Char) :
    ∀ (l1 l2 : List Char), hasSub (p :: ps) (l1 ++ (p :: ps) ++ l2) = true := by
  intro l1
  induction l1 with
  | nil =>
    intro l2
    simp only [List.nil_append, hasSub, Bool.or_eq_true]
    exact Or.inl (begWith_append_self (p :: ps) l2)
  | cons c l1 ih =>
    intro l2
    simp only [List.cons_append, hasSub, Bool.or_eq_true]
    exact Or.inr (ih l2)

/-- Unfolding the escaping scan at an `@everyone` match. -/
theorem esc_at_ev (rest : List Char) (hev : begWith evChars rest = true) :
    escapeEveryone ('@' :: rest) = '@' :: zwsp :: evChars ++ escapeEveryone (rest.drop 8) := by
  simp [escapeEveryone, hev]

/-- Unfolding the escaping scan at an `@here` match. -/
theorem esc_at_here (rest : List Char) (hev : begWith evChars rest = false)
    (hh : begWith hereChars rest = true) :
    escapeEveryone ('@' :: rest) = '@' :: zwsp :: hereChars ++ escapeEveryone (rest.drop 4) := by
  simp [escapeEveryone, hev, hh]

/-- Unfolding the escaping scan at an `@` that starts no mention. -/
theorem esc_at_none (rest : List Char) (hev : begWith evChars rest = false)
    (hh : begWith hereChars rest = false) :
    escapeEveryone ('@' :: rest) = '@' :: escapeEveryone rest := by
  simp [escapeEveryone, hev, hh]

/-- Unfolding the escaping scan at an ordinary character. -/
theorem esc_cons (c : Char) (rest : List Char) (hc : c ≠ '@') :
    escapeEveryone (c :: rest) = c :: escapeEveryone rest := by
  simp [escapeEveryone, hc]

/-- The escaping scan only rewrites after an `@`, so an escaped text can begin
with an `@`-free pattern only if the original did. -/
theorem begWith_esc : ∀ (pat : List Char), '@' ∉ pat →
    ∀ l, begWith pat (escapeEveryone l) = true → begWith pat l = true := by
  intro pat
  induction pat with
  | nil => intro _ l _; simp [begWith]
  | cons p ps ih =>
    intro hAt l hbw
    have hp : p ≠ '@' := by
      intro h; exact hAt (h ▸ List.mem_cons_self p ps)
    have hps : '@' ∉ ps := fun h => hAt (List.mem_cons_of_mem p h)
    cases l with
    | nil => simp [escapeEveryone, begWith] at hbw
    | cons c rest =>
      by_cases hc : c = '@'
      · subst hc
        exfalso
        have hbw' : ∀ tail : List Char, begWith (p :: ps) ('@' :: tail) = true → False := by
          intro tail h
          simp only [begWith] at h
          rw [if_neg hp] at h
          exact Bool.false_ne_true h
        by_cases hev : begWith evChars rest = true
        · rw [esc_at_ev rest hev] at hbw
          exact hbw' _ hbw
        · by_cases hh : begWith hereChars rest = true
          · rw [esc_at_here rest (by simpa using hev) hh] at hbw
            exact hbw' _ hbw
          · rw [esc_at_none rest (by simpa using hev) (by simpa using hh)] at hbw
            exact hbw' _ hbw
      · rw [esc_cons c rest hc] at hbw
        by_cases hpc : p = c
        · subst hpc
          simp only [begWith, if_pos rfl] at hbw ⊢
          exact ih hps rest hbw
        · simp only [begWith] at hbw
          rw [if_neg hpc] at hbw
          exact absurd hbw Bool.false_ne_true

/-- Scanning for `@everyone` skips an emitted `@`+ZWSP+`everyone` chunk. -/
theorem hasSub_ev_chunk_ev (X : List Char) :
    hasSub ('@' :: evChars) ('@' :: zwsp :: evChars ++ X) = hasSub ('@' :: evChars) X := by
  simp [hasSub, begWith, evChars, zwsp]

/-- Scanning for `@everyone` skips an emitted `@`+ZWSP+`here` chunk. -/
theorem hasSub_ev_chunk_here (X : List Char) :
    hasSub ('@' :: evChars) ('@' :: zwsp :: hereChars ++ X) = hasSub ('@' :: evChars) X := by
  simp [hasSub, begWith, evChars, hereChars, zwsp]

/-- Scanning for `@here` skips an emitted `@`+ZWSP+`everyone` chunk. -/
theorem hasSub_here_chunk_ev (X : List Char) :
    hasSub ('@' :: hereChars) ('@' :: zwsp :: evChars ++ X) = hasSub ('@' :: hereChars) X := by
  simp [hasSub, begWith, evChars, hereChars, zwsp]

/-- Scanning for `@here` skips an emitted `@`+ZWSP+`here` chunk. -/
theorem hasSub_here_chunk_here (X : List Char) :
    hasSub ('@' :: hereChars) ('@' :: zwsp :: hereChars ++ X) = hasSub ('@' :: hereChars) X := by
  simp [hasSub, begWith, hereChars, zwsp]

/-- The escaped text contains neither `@everyone` nor `@here`, by strong
induction on the input length. -/
theorem esc_no_mention_aux : ∀ (n : Nat) (l : List Char), l.length ≤ n →
    hasSub ('@' :: evChars) (escapeEveryone l) = false ∧
    hasSub ('@' :: hereChars) (escapeEveryone l) = false := by
  intro n
  induction n with
  | zero =>
    intro l hl
    cases l with
    | nil => simp [escapeEveryone, hasSub]
    | cons c rest => simp at hl
  | succ n ih =>
    intro l hl
    cases l with
    | nil => simp [escapeEveryone, hasSub]
    | cons c rest =>
      have hrest : rest.length ≤ n := by
        simp at hl; omega
      by_cases hc : c = '@'
      · subst hc
        by_cases hev : begWith evChars rest = true
        · have hdrop : (rest.drop 8).length ≤ n := by
            have := List.length_drop 8 rest
            omega
          have hih := ih (rest.drop 8) hdrop
          rw [esc_at_ev rest hev, hasSub_ev_chunk_ev, hasSub_here_chunk_ev]
          exact hih
        · by_cases hh : begWith hereChars rest = true
          · have hdrop : (rest.drop 4).length ≤ n := by
              have := List.length_drop 4 rest
              omega
            have hih := ih (rest.drop 4) hdrop
            rw [esc_at_here rest (by simpa using hev) hh, hasSub_ev_chunk_here,
              hasSub_here_chunk_here]
            exact hih
          · have hih := ih rest hrest
            rw [esc_at_none rest (by simpa using hev) (by simpa using hh)]
            constructor
            · simp only [hasSub, hih.1, Bool.or_false]
              simp only [begWith, if_pos rfl]
              cases hbe : begWith evChars (escapeEveryone rest) with
              | false => rfl
              | true =>
                exact absurd (begWith_esc evChars (by decide) rest hbe) (by simp [hev])
            · simp only [hasSub, hih.2, Bool.or_false]
              simp only [begWith, if_pos rfl]
              cases hbe : begWith hereChars (escapeEveryone rest) with
              | false => rfl
              | true =>
                exact absurd (begWith_esc hereChars (by decide) rest hbe) (by simp [hh])
      · have hih := ih rest hrest
        rw [esc_cons c rest hc]
        have hne : ¬('@' = c) := fun h => hc h.symm
        constructor
        · simp only [hasSub, hih.1, Bool.or_false]
          simp only [begWith]
          rw [if_neg hne]
        · simp only [hasSub, hih.2, Bool.or_false]
          simp only [begWith]
          rw [if_neg hne]

/-- C10: whenever `sendMessage` applies the `@everyone`/`@here` escaping
(the per-call `disableEveryone` is true, or is absent and the client option is
set), the escaped content contains no occurrence of the substring `@everyone`
and none of `@here`: no split of the result exhibits either pattern. -/
theorem sendMessage_escapes_mentions (content : List Char) (d : Option Bool) (copt : Bool)
    (hgate : shouldEscape d copt = true) :
    (∀ l1 l2, sendMessageEscape content d copt ≠ l1 ++ ('@' :: evChars) ++ l2) ∧
    (∀ l1 l2, sendMessageEscape content d copt ≠ l1 ++ ('@' :: hereChars) ++ l2) := by
  have hout : sendMessageEscape content d copt = escapeEveryone content := by
    simp [sendMessageEscape, hgate]
  have hmain := esc_no_mention_aux content.length content (le_refl _)
  constructor
  · intro l1 l2 heq
    have := hasSub_of_split '@' evChars l1 l2
    rw [← heq, hout] at this
    rw [hmain.1] at this
    exact Bool.false_ne_true this
  · intro l1 l2 heq
    have := hasSub_of_split '@' hereChars l1 l2
    rw [← heq, hout] at this
    rw [hmain.2] at this
    exact Bool.false_ne_true this

/-- Witness for C10: with the per-call option set, an `@everyone` content is
escaped so that no split of the result contains `@everyone`. -/
theorem sendMessage_escapes_mentions_witness :
    shouldEscape (some true) false = true ∧
    (∀ l1 l2, sendMessageEscape ('@' :: evChars) (some true) false ≠
      l1 ++ ('@' :: evChars) ++ l2) :=
  ⟨by decide, (sendMessage_escapes_mentions ('@' :: evChars) (some true) false (by decide)).1⟩

/-! ### RESTManager lemmas -/

/-- Looking a route up after appending a fresh binding: the old map wins when
it knows the route; the new binding answers exactly for its own route. -/
theorem findHandler_append (hs : List (Route × RequestHandler)) (route r : Route)
    (h : RequestHandler) :
    findHandler (hs ++ [(route, h)]) r =
      match findHandler hs r with
      | some h' => some h'
      | none => if route = r then some h else none := by
  induction hs with
  | nil => simp [findHandler]
  | cons p rest ih =>
    by_cases hp : p.1 = r
    · simp [findHandler, hp]
    · simp [findHandler, hp, ih]

/-- A route is absent from the map exactly when lookup fails. -/
theorem findHandler_eq_none_iff (hs : List (Route × RequestHandler)) (r : Route) :
    findHandler hs r = none ↔ r ∉ hs.map Prod.fst := by
  induction hs with
  | nil => simp [findHandler]
  | cons p rest ih =>
    obtain ⟨q, h⟩ := p
    by_cases hq : q = r
    · subst hq
      simp [findHandler]
    · have hq' : r ≠ q := fun hx => hq hx.symm
      simp [findHandler, hq, hq', ih]

/-- Pushing a queue entry under `route` rewrites exactly that route's handler
(appending to its queue) and leaves every other lookup unchanged. -/
theorem findHandler_pushEntry (hs : List (Route × RequestHandler)) (route r : Route)
    (e : QueueEntry) :
    findHandler (pushEntry hs route e) r =
      if r = route then
        (findHandler hs r).map (fun h => { h with queue := h.queue ++ [e] })
      else findHandler hs r := by
  induction hs with
  | nil => simp [findHandler, pushEntry]
  | cons p rest ih =>
    obtain ⟨q, h⟩ := p
    by_cases hpr : q = route
    · subst hpr
      by_cases hr : q = r
      · subst hr
        simp [pushEntry, findHandler]
      · have hr' : ¬ r = q := fun hx => hr hx.symm
        simp [pushEntry, findHandler, hr, hr', ih]
    · by_cases hr : q = r
      · subst hr
        simp [pushEntry, findHandler, hpr]
      · have hr' : ¬ r = q := fun hx => hr hx.symm
        simp [pushEntry, findHandler, hpr, hr, hr', ih]

/-- The handler-class selector throws exactly when the configured method is
neither `sequential` nor `burst`. -/
theorem getRequestHandler_error_iff (m : RESTManager) :
    (∃ e, m.getRequestHandler = .error e) ↔
      (m.apiRequestMethod ≠ "sequential" ∧ m.apiRequestMethod ≠ "burst") := by
  unfold RESTManager.getRequestHandler
  split_ifs with h1 h2
  · simp [h1]
  · simp [h2]
  · exact ⟨fun _ => ⟨h1, h2⟩, fun _ => ⟨.INVALID_RATE_LIMIT_METHOD, rfl⟩⟩

/-- C8: `RESTManager.request` throws synchronously (the
`INVALID_RATE_LIMIT_METHOD` error) if and only if the route has no handler yet
and `apiRequestMethod` is neither `sequential` nor `burst`.  In particular,
once a handler exists for the route, the request succeeds regardless of the
option's value, because `getRequestHandler` is consulted only on the lazy
creation path. -/
theorem request_throws_iff_no_handler_and_invalid_method (m : RESTManager) (route : Route) :
    (∃ e, m.request route = .error e) ↔
      (findHandler m.handlers route = none ∧
        m.apiRequestMethod ≠ "sequential" ∧ m.apiRequestMethod ≠ "burst") := by
  unfold RESTManager.request
  cases hf : findHandler m.handlers route with
  | some h => simp [hf]
  | none =>
    cases hg : m.getRequestHandler with
    | ok t =>
      constructor
      · rintro ⟨e, he⟩
        simp at he
      · rintro ⟨-, hinv⟩
        rcases (getRequestHandler_error_iff m).mpr hinv with ⟨e', he'⟩
        rw [hg] at he'
        simp at he'
    | error e =>
      exact ⟨fun _ => ⟨rfl, (getRequestHandler_error_iff m).mp ⟨e, hg⟩⟩, fun _ => ⟨e, rfl⟩⟩

/-- Counterexample for C3 as stated: with no handler for the route and an
unrecognized `apiRequestMethod`, `request` does not return a future at all —
it throws `INVALID_RATE_LIMIT_METHOD` synchronously. -/
theorem request_sync_throw_counterexample :
    (RESTManager.initial ("fifo")).request ("channels/1") =
      .error .INVALID_RATE_LIMIT_METHOD := by
  rfl

/-- Promise allocation invariant: every entry in any handler's queue carries a
promise identity older than the next fresh one.  It holds for the constructor
state and is preserved by `request`. -/
def PromiseInv (m : RESTManager) : Prop :=
  ∀ r h, findHandler m.handlers r = some h →
    ∀ e, e ∈ h.queue → e.promiseId < m.nextPromiseId

/-- The settlement contract of a non-throwing `request` call: it returns a
fresh, pending future (no existing queue entry carries its identity), and the
resolve/reject continuations of that future are carried by exactly one queue
entry — the one appended at the tail of the route's handler queue — so the
future settles exactly when that handler settles the enqueued entry. -/
def RequestFutureSpec (m : RESTManager) (route : Route) : Prop :=
  ∃ hid m', m.request route = .ok (hid, m.nextPromiseId, m') ∧
    m'.nextPromiseId = m.nextPromiseId + 1 ∧
    (∃ h q, findHandler m'.handlers route = some h ∧ h.hid = hid ∧
      h.queue = q ++ [⟨m.nextPromiseId⟩] ∧ ∀ e ∈ q, e.promiseId ≠ m.nextPromiseId) ∧
    (∀ r', r' ≠ route → findHandler m'.handlers r' = findHandler m.handlers r') ∧
    (∀ r' h' e, findHandler m'.handlers r' = some h' → e ∈ h'.queue →
      e.promiseId = m.nextPromiseId → r' = route)

/-- C3 (amended): provided the route already has a handler or the configured
method is `sequential` or `burst`, `request` returns without throwing, and the
returned future is settled by no code path other than the route's handler
resolving or rejecting the entry just enqueued: the future's identity is fresh
and lives in exactly that entry. -/
theorem request_returns_enqueued_future (m : RESTManager) (route : Route)
    (hvalid : findHandler m.handlers route ≠ none ∨
      m.apiRequestMethod = "sequential" ∨ m.apiRequestMethod = "burst")
    (hinv : PromiseInv m) :
    RequestFutureSpec m route := by
  cases hf : findHandler m.handlers route with
  | some h =>
    refine ⟨h.hid,
      { m with
          handlers := pushEntry m.handlers route ⟨m.nextPromiseId⟩
          nextPromiseId := m.nextPromiseId + 1 },
      by simp [RESTManager.request, hf], rfl, ?_, ?_, ?_⟩
    · refine ⟨{ h with queue := h.queue ++ [⟨m.nextPromiseId⟩] }, h.queue, ?_, rfl, rfl, ?_⟩
      · simp [findHandler_pushEntry, hf]
      · intro e he
        exact Nat.ne_of_lt (hinv route h hf e he)
    · intro r' hne
      simp only [findHandler_pushEntry, if_neg hne]
    · intro r' h' e hfind he hpid
      by_contra hne
      rw [findHandler_pushEntry, if_neg hne] at hfind
      have := hinv r' h' hfind e he
      omega
  | none =>
    have hg : ∃ t, m.getRequestHandler = .ok t := by
      rcases hvalid with hv | hv | hv
      · exact absurd hf hv
      · exact ⟨.sequential, by simp [RESTManager.getRequestHandler, hv]⟩
      · refine ⟨?_, ?_⟩
        · exact if m.apiRequestMethod = "sequential" then .sequential else .burst
        · by_cases hs : m.apiRequestMethod = "sequential"
          · simp [RESTManager.getRequestHandler, hs]
          · simp [RESTManager.getRequestHandler, hs, hv]
    obtain ⟨t, hgr⟩ := hg
    have happ : ∀ r', findHandler (m.handlers ++ [(route, ⟨m.nextHandlerId, t, [], false⟩)]) r' =
        if route = r' then some ⟨m.nextHandlerId, t, [], false⟩ else findHandler m.handlers r' := by
      intro r'
      rw [findHandler_append]
      cases hfr : findHandler m.handlers r' with
      | some h' =>
        have : route ≠ r' := by
          intro hx
          rw [← hx] at hfr
          rw [hf] at hfr
          exact absurd hfr (by simp)
        simp [this]
      | none => rfl
    refine ⟨m.nextHandlerId,
      { m with
          handlers := pushEntry (m.handlers ++ [(route, ⟨m.nextHandlerId, t, [], false⟩)])
            route ⟨m.nextPromiseId⟩
          nextHandlerId := m.nextHandlerId + 1
          nextPromiseId := m.nextPromiseId + 1 },
      by simp [RESTManager.request, hf, hgr], rfl, ?_, ?_, ?_⟩
    · refine ⟨⟨m.nextHandlerId, t, [⟨m.nextPromiseId⟩], false⟩, [], ?_, rfl, by simp, by simp⟩
      rw [findHandler_pushEntry, if_pos rfl, happ route, if_pos rfl]
      rfl
    · intro r' hne
      rw [findHandler_pushEntry, if_neg hne, happ r', if_neg (fun hx => hne hx.symm)]
    · intro r' h' e hfind he hpid
      by_contra hne
      rw [findHandler_pushEntry, if_neg hne, happ r', if_neg (fun hx => hne hx.symm)] at hfind
      have := hinv r' h' hfind e he
      omega

/-- Pushing a queue entry never changes the key set of the handler map. -/
theorem pushEntry_keys (hs : List (Route × RequestHandler)) (route : Route) (e : QueueEntry) :
    (pushEntry hs route e).map Prod.fst = hs.map Prod.fst := by
  induction hs with
  | nil => rfl
  | cons p rest ih =>
    obtain ⟨q, h⟩ := p
    by_cases hq : q = route
    · simp [pushEntry, hq, ih]
    · simp [pushEntry, hq, ih]

/-- Appending a binding for a route the map does not know yet: lookups answer
from the new binding for that route and are otherwise unchanged. -/
theorem findHandler_append_new (hs : List (Route × RequestHandler)) (route : Route)
    (h : RequestHandler) (hnone : findHandler hs route = none) (r : Route) :
    findHandler (hs ++ [(route, h)]) r = if route = r then some h else findHandler hs r := by
  rw [findHandler_append]
  cases hfr : findHandler hs r with
  | some h' =>
    have hne : route ≠ r := by
      intro hx
      rw [← hx] at hfr
      rw [hnone] at hfr
      exact absurd hfr (by simp)
    simp [hne]
  | none => rfl

/-- Allocation invariant on handler identities: every stored handler was
allocated before the next fresh identity, distinct routes hold handlers with
distinct identities, and no route appears twice in the map. -/
structure HandlerInv (m : RESTManager) : Prop where
  hidBound : ∀ r h, findHandler m.handlers r = some h → h.hid < m.nextHandlerId
  hidInj : ∀ r1 r2 h1 h2, findHandler m.handlers r1 = some h1 →
    findHandler m.handlers r2 = some h2 → h1.hid = h2.hid → r1 = r2
  keysNodup : (m.handlers.map Prod.fst).Nodup

/-- A successful `request` either reused the existing handler of the route or
lazily created a fresh one; in both cases the resulting state is determined. -/
theorem request_ok_cases (m : RESTManager) (route : Route) (hid p : Nat) (m' : RESTManager)
    (hreq : m.request route = .ok (hid, p, m')) :
    (∃ h, findHandler m.handlers route = some h ∧ hid = h.hid ∧ p = m.nextPromiseId ∧
      m' = { m with
              handlers := pushEntry m.handlers route ⟨m.nextPromiseId⟩
              nextPromiseId := m.nextPromiseId + 1 }) ∨
    (∃ t, findHandler m.handlers route = none ∧ m.getRequestHandler = .ok t ∧
      hid = m.nextHandlerId ∧ p = m.nextPromiseId ∧
      m' = { m with
              handlers := pushEntry (m.handlers ++ [(route, ⟨m.nextHandlerId, t, [], false⟩)])
                route ⟨m.nextPromiseId⟩
              nextHandlerId := m.nextHandlerId + 1
              nextPromiseId := m.nextPromiseId + 1 }) := by
  unfold RESTManager.request at hreq
  cases hfind : findHandler m.handlers route with
  | some h =>
    rw [hfind] at hreq
    simp only [Except.ok.injEq, Prod.mk.injEq] at hreq
    exact Or.inl ⟨h, rfl, hreq.1.symm, hreq.2.1.symm, hreq.2.2.symm⟩
  | none =>
    rw [hfind] at hreq
    cases hg : m.getRequestHandler with
    | error e =>
      rw [hg] at hreq
      simp at hreq
    | ok t =>
      rw [hg] at hreq
      simp only [Except.ok.injEq, Prod.mk.injEq] at hreq
      exact Or.inr ⟨t, rfl, rfl, hreq.1.symm, hreq.2.1.symm, hreq.2.2.symm⟩

/-- One successful `request` call: the route now holds a handler with the
reported identity, every previously stored handler survives with its identity
intact, the allocation invariant is preserved, and the allocation counter does
not go backwards. -/
theorem request_preserves (m : RESTManager) (route : Route) (hid p : Nat) (m' : RESTManager)
    (hreq : m.request route = .ok (hid, p, m')) :
    (∃ h', findHandler m'.handlers route = some h' ∧ h'.hid = hid) ∧
    (∀ r h, findHandler m.handlers r = some h →
      ∃ h', findHandler m'.handlers r = some h' ∧ h'.hid = h.hid) ∧
    (HandlerInv m → HandlerInv m') ∧
    m.nextHandlerId ≤ m'.nextHandlerId := by
  rcases request_ok_cases m route hid p m' hreq with
    ⟨h, hfind, hhid, hp, hm'⟩ | ⟨t, hfind, hg, hhid, hp, hm'⟩
  · subst hm'
    have hrev : ∀ r h', findHandler (pushEntry m.handlers route ⟨m.nextPromiseId⟩) r = some h' →
        ∃ h0, findHandler m.handlers r = some h0 ∧ h0.hid = h'.hid := by
      intro r h' hfr
      rw [findHandler_pushEntry] at hfr
      by_cases hr : r = route
      · rw [if_pos hr] at hfr
        cases hf0 : findHandler m.handlers r with
        | some h0 =>
          rw [hf0] at hfr
          simp only [Option.map_some', Option.some.injEq] at hfr
          exact ⟨h0, rfl, by rw [← hfr]⟩
        | none =>
          rw [hf0] at hfr
          simp at hfr
      · rw [if_neg hr] at hfr
        exact ⟨h', hfr, rfl⟩
    refine ⟨⟨{ h with queue := h.queue ++ [⟨m.nextPromiseId⟩] }, ?_, hhid.symm⟩, ?_, ?_, le_refl _⟩
    · rw [findHandler_pushEntry, if_pos rfl, hfind]
      rfl
    · intro r h0 hf0
      rw [findHandler_pushEntry]
      by_cases hr : r = route
      · rw [if_pos hr, hf0]
        exact ⟨{ h0 with queue := h0.queue ++ [⟨m.nextPromiseId⟩] }, rfl, rfl⟩
      · rw [if_neg hr]
        exact ⟨h0, hf0, rfl⟩
    · intro hinv
      refine ⟨?_, ?_, ?_⟩
      · intro r h' hf'
        obtain ⟨h0, hf0, hh0⟩ := hrev r h' hf'
        rw [← hh0]
        exact hinv.hidBound r h0 hf0
      · intro r1 r2 h1 h2 hf1 hf2 hh
        obtain ⟨h01, hf01, hh01⟩ := hrev r1 h1 hf1
        obtain ⟨h02, hf02, hh02⟩ := hrev r2 h2 hf2
        exact hinv.hidInj r1 r2 h01 h02 hf01 hf02 (by rw [hh01, hh02, hh])
      · simpa [pushEntry_keys] using hinv.keysNodup
  · subst hm'
    have happ := findHandler_append_new m.handlers route ⟨m.nextHandlerId, t, [], false⟩ hfind
    have hfwd : ∀ r, findHandler
        (pushEntry (m.handlers ++ [(route, ⟨m.nextHandlerId, t, [], false⟩)])
          route ⟨m.nextPromiseId⟩) r =
        if r = route then some ⟨m.nextHandlerId, t, [⟨m.nextPromiseId⟩], false⟩
        else findHandler m.handlers r := by
      intro r
      rw [findHandler_pushEntry]
      by_cases hr : r = route
      · rw [if_pos hr, if_pos hr, happ r, if_pos hr.symm]
        rfl
      · rw [if_neg hr, if_neg hr, happ r, if_neg (fun hx => hr hx.symm)]
    refine ⟨⟨⟨m.nextHandlerId, t, [⟨m.nextPromiseId⟩], false⟩, ?_, hhid.symm⟩, ?_, ?_, Nat.le_succ _⟩
    · rw [hfwd route, if_pos rfl]
    · intro r h0 hf0
      have hr : r ≠ route := by
        intro hx
        rw [hx, hfind] at hf0
        exact absurd hf0 (by simp)
      rw [hfwd r, if_neg hr]
      exact ⟨h0, hf0, rfl⟩
    · intro hinv
      refine ⟨?_, ?_, ?_⟩
      · intro r h' hf'
        rw [hfwd r] at hf'
        by_cases hr : r = route
        · rw [if_pos hr] at hf'
          simp only [Option.some.injEq] at hf'
          rw [← hf']
          exact Nat.lt_succ_self _
        · rw [if_neg hr] at hf'
          exact Nat.lt_succ_of_lt (hinv.hidBound r h' hf')
      · intro r1 r2 h1 h2 hf1 hf2 hh
        rw [hfwd r1] at hf1
        rw [hfwd r2] at hf2
        by_cases hr1 : r1 = route <;> by_cases hr2 : r2 = route
        · rw [hr1, hr2]
        · rw [if_pos hr1] at hf1
          rw [if_neg hr2] at hf2
          simp only [Option.some.injEq] at hf1
          have hb := hinv.hidBound r2 h2 hf2
          exfalso
          have hh1 : h1.hid = m.nextHandlerId := by rw [← hf1]
          omega
        · rw [if_neg hr1] at hf1
          rw [if_pos hr2] at hf2
          simp only [Option.some.injEq] at hf2
          have hb := hinv.hidBound r1 h1 hf1
          exfalso
          have hh2 : h2.hid = m.nextHandlerId := by rw [← hf2]
          omega
        · rw [if_neg hr1] at hf1
          rw [if_neg hr2] at hf2
          exact hinv.hidInj r1 r2 h1 h2 hf1 hf2 hh
      · rw [pushEntry_keys]
        have hnotin : route ∉ m.handlers.map Prod.fst :=
          (findHandler_eq_none_iff m.handlers route).mp hfind
        simp [List.nodup_append, hinv.keysNodup, hnotin]

/-- A successful run of requests: the invariant survives, one handler identity
is reported per request, previously stored handlers keep their identities, and
the i-th reported identity is the identity the final map stores for the i-th
requested route. -/
theorem runRequests_spec (rs : List Route) :
    ∀ (m : RESTManager) (outs : List Nat) (mf : RESTManager),
      runRequests m rs = .ok (outs, mf) → HandlerInv m →
      HandlerInv mf ∧ outs.length = rs.length ∧
      (∀ r h, findHandler m.handlers r = some h →
        ∃ h', findHandler mf.handlers r = some h' ∧ h'.hid = h.hid) ∧
      (∀ i r, rs.get? i = some r →
        ∃ h, findHandler mf.handlers r = some h ∧ outs.get? i = some h.hid) := by
  induction rs with
  | nil =>
    intro m outs mf hrun hinv
    unfold runRequests at hrun
    simp only [Except.ok.injEq, Prod.mk.injEq] at hrun
    obtain ⟨houts, hmf⟩ := hrun
    subst houts
    subst hmf
    refine ⟨hinv, rfl, fun r h hf => ⟨h, hf, rfl⟩, fun i r hget => ?_⟩
    simp at hget
  | cons r0 rs ih =>
    intro m outs mf hrun hinv
    unfold runRequests at hrun
    cases hreq : m.request r0 with
    | error e =>
      rw [hreq] at hrun
      simp at hrun
    | ok trip =>
      obtain ⟨hid, p, m1⟩ := trip
      rw [hreq] at hrun
      dsimp only at hrun
      cases hrun2 : runRequests m1 rs with
      | error e =>
        rw [hrun2] at hrun
        simp at hrun
      | ok pr =>
        obtain ⟨outs', mf'⟩ := pr
        rw [hrun2] at hrun
        simp only [Except.ok.injEq, Prod.mk.injEq] at hrun
        obtain ⟨houts, hmf⟩ := hrun
        subst houts
        subst hmf
        have hstep := request_preserves m r0 hid p m1 hreq
        have hinv1 : HandlerInv m1 := hstep.2.2.1 hinv
        have IH := ih m1 outs' mf' hrun2 hinv1
        refine ⟨IH.1, by simp [IH.2.1], ?_, ?_⟩
        · intro r h hfind
          obtain ⟨h1, hf1, hh1⟩ := hstep.2.1 r h hfind
          obtain ⟨h2, hf2, hh2⟩ := IH.2.2.1 r h1 hf1
          exact ⟨h2, hf2, hh2.trans hh1⟩
        · intro i r hget
          cases i with
          | zero =>
            simp only [List.get?] at hget
            obtain rfl : r0 = r := by
              simpa using hget
            obtain ⟨h1, hf1, hh1⟩ := hstep.1
            obtain ⟨h2, hf2, hh2⟩ := IH.2.2.1 r0 h1 hf1
            exact ⟨h2, hf2, by simp [hh2, hh1]⟩
          | succ n =>
            simp only [List.get?] at hget ⊢
            exact IH.2.2.2 n r hget

/-- C1: starting from the constructor state, whenever a sequence of `request`
calls all succeed, two of the requests were enqueued into the same
`RequestHandler` if and only if their routes are equal; moreover no route ever
holds two handlers (the route-to-handler map has no duplicate key).  Handlers
are created lazily on a route's first request and reused by identity
afterwards. -/
theorem enqueue_same_handler_iff_same_route (method : String) (rs : List Route)
    (outs : List Nat) (mf : RESTManager)
    (hrun : runRequests (RESTManager.initial method) rs = .ok (outs, mf)) :
    outs.length = rs.length ∧
    (mf.handlers.map Prod.fst).Nodup ∧
    ∀ i j ri rj oi oj, rs.get? i = some ri → rs.get? j = some rj →
      outs.get? i = some oi → outs.get? j = some oj → (oi = oj ↔ ri = rj) := by
  have hinv0 : HandlerInv (RESTManager.initial method) := by
    refine ⟨?_, ?_, ?_⟩
    · intro r h hf
      simp [RESTManager.initial, findHandler] at hf
    · intro r1 r2 h1 h2 hf1 hf2 _
      simp [RESTManager.initial, findHandler] at hf1
    · simp [RESTManager.initial]
  have H := runRequests_spec rs (RESTManager.initial method) outs mf hrun hinv0
  refine ⟨H.2.1, H.1.keysNodup, ?_⟩
  intro i j ri rj oi oj hri hrj hoi hoj
  obtain ⟨hi', hfi, hgi⟩ := H.2.2.2 i ri hri
  obtain ⟨hj', hfj, hgj⟩ := H.2.2.2 j rj hrj
  rw [hoi] at hgi
  rw [hoj] at hgj
  have hgi' : oi = hi'.hid := by simpa using hgi
  have hgj' : oj = hj'.hid := by simpa using hgj
  constructor
  · intro hoij
    exact H.1.hidInj ri rj hi' hj' hfi hfj (by rw [← hgi', ← hgj', hoij])
  · intro hrij
    subst hrij
    rw [hfi] at hfj
    have : hi' = hj' := by simpa using hfj
    rw [hgi', hgj', this]

/-- Witness for C1: a run over routes a, b, a assigns handler identities
0, 1, 0 — equal exactly where the routes coincide. -/
theorem enqueue_same_handler_iff_same_route_witness :
    (runRequests (RESTManager.initial ("sequential")) [("a"), ("b"), ("a")] =
      .ok ([0, 1, 0],
        { handlers :=
            [(("a" : Route), ⟨0, .sequential, [⟨0⟩, ⟨2⟩], false⟩),
             (("b" : Route), ⟨1, .sequential, [⟨1⟩], false⟩)]
          nextHandlerId := 2
          nextPromiseId := 3
          apiRequestMethod := ("sequential")
          globallyRateLimited := false })) ∧
    ((0 : Nat) = 0 ↔ ("a" : Route) = ("a")) ∧ ((0 : Nat) = 1 ↔ ("a" : Route) = ("b")) := by
  have hrun : runRequests (RESTManager.initial ("sequential")) [("a"), ("b"), ("a")] =
      .ok ([0, 1, 0],
        { handlers :=
            [(("a" : Route), ⟨0, .sequential, [⟨0⟩, ⟨2⟩], false⟩),
             (("b" : Route), ⟨1, .sequential, [⟨1⟩], false⟩)]
          nextHandlerId := 2
          nextPromiseId := 3
          apiRequestMethod := ("sequential")
          globallyRateLimited := false }) := by rfl
  refine ⟨hrun, ?_, ?_⟩
  · exact (enqueue_same_handler_iff_same_route ("sequential") _ _ _ hrun).2.2
      0 2 ("a") ("a") 0 0 rfl rfl rfl rfl
  · exact (enqueue_same_handler_iff_same_route ("sequential") _ _ _ hrun).2.2
      0 1 ("a") ("b") 0 1 rfl rfl rfl rfl

/-- Witness for C3: from the constructor state with a valid method, `request`
returns the pending future enqueued on the fresh handler. -/
theorem request_returns_enqueued_future_witness :
    RequestFutureSpec (RESTManager.initial ("sequential")) ("channels/1") :=
  request_returns_enqueued_future (RESTManager.initial ("sequential")) ("channels/1")
    (Or.inr (Or.inl rfl))
    (fun r h hfind => by simp [RESTManager.initial, findHandler] at hfind)

end DiscordJS
